import Mathlib

/-!
Verification of the bootstrap dependency-graph engine
(`src/bootstrap/build/step.rs`): the `Step`/`Source` data model, the
dependency rule set `deps`, the root selector `top_level`/`add_steps`,
and the graph resolver `all` (depth-first postorder closure with a
visited set).

Embedding notes:
* Rust `u32` stages are modelled as `Nat`; the only subtraction
  (`stage - 1` in the `Rustc` rule) is guarded by the `stage: 0` arm,
  so no wrap-around behaviour is observable.
* The `Llvm`/`CompilerRt` `_dummy: ()` payloads carry no information
  and are dropped.
* The `deps` function only reads `build.config.build` from the `Build`
  context, so it (and the resolver built on it) takes that triple as a
  plain `String` argument; `Build.all` passes `b.config.build`.
* The Rust method `Step::target` (rebind the addressing triple) is
  named `retarget` here because `target` is already the field
  projection; the spec uses the same name for this operation.
* In the source, the match arm `Source::Check {..} => { vec![]` is
  missing its closing brace before the `Source::ToolRustbook` arm; the
  file's braces balance exactly when one `}` is inserted after
  `vec![]`, and the indentation confirms that reading, so the embedding
  reads `Check` as returning the empty vector and `ToolRustbook` as its
  own arm.
-/

/-- `Compiler` from `build` (referenced by `step.rs`): a stage number
together with the host triple the compiler runs on. -/
structure Compiler where
  stage : Nat
  host : String
deriving DecidableEq, Repr

/-- The closed action catalog `Source<'a>` generated by the `targets!`
macro in `step.rs`, in declaration order. -/
inductive Source where
  | Rustc (stage : Nat)
  | Libstd (stage : Nat) (compiler : Compiler)
  | Librustc (stage : Nat) (compiler : Compiler)
  | LibstdLink (stage : Nat) (compiler : Compiler) (host : String)
  | LibrustcLink (stage : Nat) (compiler : Compiler) (host : String)
  | ToolRustbook (stage : Nat)
  | Llvm
  | CompilerRt
  | Doc (stage : Nat)
  | DocBook (stage : Nat)
  | DocNomicon (stage : Nat)
  | DocStyle (stage : Nat)
  | DocStandalone (stage : Nat)
  | DocStd (stage : Nat)
  | DocRustc (stage : Nat)
  | Check (stage : Nat) (compiler : Compiler)
deriving DecidableEq, Repr

/-- `Step<'a>`: a `Source` bound to the triple it is addressed for.
Structural equality (derived) is the identity used for deduplication. -/
structure Step where
  src : Source
  target : String
deriving DecidableEq, Repr

/-- Invocation-time flags consumed by `top_level`/`add_steps`. -/
structure Flags where
  stage : Option Nat
  host : List String
  target : List String
  step : List String
deriving DecidableEq, Repr

/-- The configuration fields of `Build` that `step.rs` reads. -/
structure Config where
  build : String
  host : List String
  target : List String
deriving DecidableEq, Repr

/-- The `Build` context as seen by `step.rs`. -/
structure Build where
  flags : Flags
  config : Config
deriving DecidableEq, Repr

/-- `Step::compiler`: the `compiler_at(stage)` derivation — a compiler
at `stage` hosted where this step is addressed. -/
def Step.compiler (s : Step) (stage : Nat) : Compiler := ⟨stage, s.target⟩

/-- `Step::target` in the source (renamed: `target` is the field
projection): a copy of the step addressed for another triple. -/
def Step.retarget (s : Step) (t : String) : Step := ⟨s.src, t⟩

/-! The per-variant constructor methods generated by `targets!(constructors)`. -/

def Step.rustc (s : Step) (stage : Nat) : Step := ⟨Source.Rustc stage, s.target⟩

def Step.libstd (s : Step) (stage : Nat) (compiler : Compiler) : Step :=
  ⟨Source.Libstd stage compiler, s.target⟩

def Step.librustc (s : Step) (stage : Nat) (compiler : Compiler) : Step :=
  ⟨Source.Librustc stage compiler, s.target⟩

def Step.libstd_link (s : Step) (stage : Nat) (compiler : Compiler) (host : String) : Step :=
  ⟨Source.LibstdLink stage compiler host, s.target⟩

def Step.librustc_link (s : Step) (stage : Nat) (compiler : Compiler) (host : String) : Step :=
  ⟨Source.LibrustcLink stage compiler host, s.target⟩

def Step.tool_rustbook (s : Step) (stage : Nat) : Step :=
  ⟨Source.ToolRustbook stage, s.target⟩

def Step.llvm (s : Step) : Step := ⟨Source.Llvm, s.target⟩

def Step.compiler_rt (s : Step) : Step := ⟨Source.CompilerRt, s.target⟩

def Step.doc (s : Step) (stage : Nat) : Step := ⟨Source.Doc stage, s.target⟩

def Step.doc_book (s : Step) (stage : Nat) : Step := ⟨Source.DocBook stage, s.target⟩

def Step.doc_nomicon (s : Step) (stage : Nat) : Step := ⟨Source.DocNomicon stage, s.target⟩

def Step.doc_style (s : Step) (stage : Nat) : Step := ⟨Source.DocStyle stage, s.target⟩

def Step.doc_standalone (s : Step) (stage : Nat) : Step := ⟨Source.DocStandalone stage, s.target⟩

def Step.doc_std (s : Step) (stage : Nat) : Step := ⟨Source.DocStd stage, s.target⟩

def Step.doc_rustc (s : Step) (stage : Nat) : Step := ⟨Source.DocRustc stage, s.target⟩

def Step.check (s : Step) (stage : Nat) (compiler : Compiler) : Step :=
  ⟨Source.Check stage compiler, s.target⟩

/-- `Step::deps` from `step.rs`: the dependency rule set. `bld` is
`build.config.build`, the only part of the `Build` context the source
function reads. -/
def Step.deps (s : Step) (bld : String) : List Step :=
  match s.src with
  | Source.Rustc 0 => []
  | Source.Rustc (n + 1) => [s.librustc n ⟨n, bld⟩]
  | Source.Librustc stage compiler => [s.libstd stage compiler, s.llvm]
  | Source.Libstd _ compiler =>
      [s.compiler_rt, (s.rustc compiler.stage).retarget compiler.host]
  | Source.LibrustcLink stage compiler host =>
      [s.librustc stage compiler, s.libstd_link stage compiler host]
  | Source.LibstdLink stage compiler host =>
      [s.libstd stage compiler, (s.retarget host).rustc stage]
  | Source.CompilerRt => [s.llvm.retarget bld]
  | Source.Llvm => []
  | Source.DocStd stage => [s.libstd stage (s.compiler stage)]
  | Source.DocBook stage => [s.tool_rustbook stage]
  | Source.DocNomicon stage => [s.tool_rustbook stage]
  | Source.DocStyle stage => [s.tool_rustbook stage]
  | Source.DocStandalone stage => [s.rustc stage]
  | Source.DocRustc stage => [s.doc_std stage]
  | Source.Doc stage =>
      [s.doc_book stage, s.doc_nomicon stage, s.doc_style stage,
       s.doc_standalone stage, s.doc_std stage]
  | Source.Check _ _ => []
  | Source.ToolRustbook stage => [s.librustc stage (s.compiler stage)]

example :
    Step.deps ⟨Source.Rustc 2, "t"⟩ "b" =
      [⟨Source.Librustc 1 ⟨1, "b"⟩, "t"⟩] := by decide

example :
    Step.deps ⟨Source.Libstd 7 ⟨2, "h"⟩, "t"⟩ "b" =
      [⟨Source.CompilerRt, "t"⟩, ⟨Source.Rustc 2, "h"⟩] := by decide

/-- The canonical hyphenated action names, in `targets!` declaration
order (`stringify!($short).replace("_", "-")` in `add_steps`). -/
def step_names : List String :=
  ["rustc", "libstd", "librustc", "libstd-link", "librustc-link",
   "tool-rustbook", "llvm", "compiler-rt", "doc", "doc-book",
   "doc-nomicon", "doc-style", "doc-standalone", "doc-std", "doc-rustc",
   "check"]

/-- One iteration of the `add_step!` macro body in `add_steps`: try the
requested `name` against every variant's hyphenated short name and
construct the matching step (on the addressing step `target`) from the
`Context` fields, or nothing when no variant matches. -/
def name_step (stage : Nat) (compiler : Compiler) (hostT : String)
    (target : Step) (name : String) : List Step :=
  if name = "rustc" then [target.rustc stage]
  else if name = "libstd" then [target.libstd stage compiler]
  else if name = "librustc" then [target.librustc stage compiler]
  else if name = "libstd-link" then [target.libstd_link stage compiler hostT]
  else if name = "librustc-link" then [target.librustc_link stage compiler hostT]
  else if name = "tool-rustbook" then [target.tool_rustbook stage]
  else if name = "llvm" then [target.llvm]
  else if name = "compiler-rt" then [target.compiler_rt]
  else if name = "doc" then [target.doc stage]
  else if name = "doc-book" then [target.doc_book stage]
  else if name = "doc-nomicon" then [target.doc_nomicon stage]
  else if name = "doc-style" then [target.doc_style stage]
  else if name = "doc-standalone" then [target.doc_standalone stage]
  else if name = "doc-std" then [target.doc_std stage]
  else if name = "doc-rustc" then [target.doc_rustc stage]
  else if name = "check" then [target.check stage compiler]
  else []

/-- The loop of `add_steps` over `build.flags.step`. -/
def add_steps_list (stage : Nat) (compiler : Compiler) (hostT : String)
    (target : Step) : List String → List Step
  | [] => []
  | n :: rest =>
      name_step stage compiler hostT target n ++
        add_steps_list stage compiler hostT target rest

/-- `add_steps` from `step.rs`: explicit-mode root construction. The
`Context` is `stage`, `compiler = host.target(&build.config.build)
.compiler(stage)` (a compiler at `stage` hosted on the primary build
triple) and `host = host.target`. -/
def add_steps (b : Build) (stage : Nat) (host target : Step) : List Step :=
  add_steps_list stage ⟨stage, b.config.build⟩ host.target target b.flags.step

/-- The inner loop of `top_level`'s default mode over
`build.config.target` (with the `continue` filter on
`build.flags.target`). -/
def target_roots (b : Build) (stage : Nat) (t hostStep : Step) :
    List String → List Step
  | [] => []
  | tg :: tgs =>
      if tg ∈ b.flags.target then
        (if hostStep.target = b.config.build then
           (hostStep.retarget tg).libstd stage (hostStep.compiler stage)
         else
           (hostStep.retarget tg).libstd_link stage (t.compiler stage) hostStep.target) ::
          target_roots b stage t hostStep tgs
      else target_roots b stage t hostStep tgs

/-- The outer loop of `top_level`'s default mode over
`build.config.host` (with the `continue` filter on
`build.flags.host`). -/
def host_roots (b : Build) (stage : Nat) (t : Step) :
    List String → List Step
  | [] => []
  | h :: hs =>
      if h ∈ b.flags.host then
        let hostStep := t.retarget h
        (if hostStep.target = b.config.build then
           hostStep.librustc stage (hostStep.compiler stage)
         else
           hostStep.librustc_link stage (t.compiler stage) hostStep.target) ::
          (target_roots b stage t hostStep b.config.target ++
            host_roots b stage t hs)
      else host_roots b stage t hs

/-- The default-mode block of `top_level` (the body of
`if targets.len() == 0`): the `Doc` root for the primary build triple
followed by the per-host (and per-target) library roots. -/
def default_targets (b : Build) (stage : Nat) : List Step :=
  let t : Step := ⟨Source.Llvm, b.config.build⟩
  t.doc stage :: host_roots b stage t b.config.host

/-- `top_level` from `step.rs`: the root selector. -/
def top_level (b : Build) : List Step :=
  let stage := b.flags.stage.getD 2
  let hostT : String := b.flags.host.head?.getD b.config.build
  let targetT : String := b.flags.target.head?.getD hostT
  let host : Step := ⟨Source.Llvm, hostT⟩
  let target : Step := ⟨Source.Llvm, targetT⟩
  let targets := add_steps b stage host target
  if targets = [] then default_targets b stage else targets

example :
    top_level ⟨⟨none, [], [], ["llvm"]⟩, ⟨"b", ["b"], ["b"]⟩⟩ =
      [⟨Source.Llvm, "b"⟩] := by decide

example :
    top_level ⟨⟨some 1, ["b"], ["b"], []⟩, ⟨"b", ["b"], ["b"]⟩⟩ =
      [⟨Source.Doc 1, "b"⟩, ⟨Source.Librustc 1 ⟨1, "b"⟩, "b"⟩,
       ⟨Source.Libstd 1 ⟨1, "b"⟩, "b"⟩] := by decide

/-- A rank on action kinds that strictly decreases along every edge of
the dependency rule set: the bootstrap chain decreases the stage, and
within a stage the variants are layered. Witnesses that the rule set
is acyclic (the claim C1 assumes acyclicity; here it is provable). -/
def sourceRank : Source → Nat
  | Source.Llvm => 1
  | Source.CompilerRt => 2
  | Source.Check _ _ => 1
  | Source.Rustc st => 10 * st + 3
  | Source.Libstd _ c => 10 * c.stage + 4
  | Source.Librustc _ c => 10 * c.stage + 5
  | Source.LibstdLink st c _ => 10 * max st c.stage + 6
  | Source.LibrustcLink st c _ => 10 * max st c.stage + 7
  | Source.ToolRustbook st => 10 * st + 6
  | Source.DocStd st => 10 * st + 5
  | Source.DocBook st => 10 * st + 7
  | Source.DocNomicon st => 10 * st + 7
  | Source.DocStyle st => 10 * st + 7
  | Source.DocStandalone st => 10 * st + 4
  | Source.DocRustc st => 10 * st + 6
  | Source.Doc st => 10 * st + 8

/-- Rank of a step (the addressing triple is irrelevant). -/
def stepRank (s : Step) : Nat := sourceRank s.src

theorem stepRank_pos (s : Step) : 1 ≤ stepRank s := by
  obtain ⟨src, t⟩ := s
  unfold stepRank sourceRank
  cases src <;> simp <;> omega

/-- Every dependency has strictly smaller rank: the dependency rule
set is acyclic. -/
theorem deps_rank_lt (bld : String) (s d : Step) (hd : d ∈ s.deps bld) :
    stepRank d < stepRank s := by
  obtain ⟨src, t⟩ := s
  cases src with
  | Rustc st =>
      cases st with
      | zero => simp [Step.deps] at hd
      | succ n =>
          simp [Step.deps, Step.librustc] at hd
          subst hd
          simp [stepRank, sourceRank]
          omega
  | Libstd st c =>
      simp [Step.deps, Step.compiler_rt, Step.rustc, Step.retarget] at hd
      rcases hd with hd | hd <;> subst hd <;>
        simp [stepRank, sourceRank] <;> omega
  | Librustc st c =>
      simp [Step.deps, Step.libstd, Step.llvm] at hd
      rcases hd with hd | hd <;> subst hd <;>
        simp [stepRank, sourceRank] <;> omega
  | LibstdLink st c host =>
      simp [Step.deps, Step.libstd, Step.rustc, Step.retarget] at hd
      rcases hd with hd | hd <;> subst hd <;>
        simp [stepRank, sourceRank] <;> omega
  | LibrustcLink st c host =>
      simp [Step.deps, Step.librustc, Step.libstd_link] at hd
      rcases hd with hd | hd <;> subst hd <;>
        simp [stepRank, sourceRank] <;> omega
  | ToolRustbook st =>
      simp [Step.deps, Step.librustc, Step.compiler] at hd
      subst hd
      simp [stepRank, sourceRank]
  | Llvm => simp [Step.deps] at hd
  | CompilerRt =>
      simp [Step.deps, Step.llvm, Step.retarget] at hd
      subst hd
      simp [stepRank, sourceRank]
  | Doc st =>
      simp [Step.deps, Step.doc_book, Step.doc_nomicon, Step.doc_style,
            Step.doc_standalone, Step.doc_std] at hd
      rcases hd with hd | hd | hd | hd | hd <;> subst hd <;>
        simp [stepRank, sourceRank] <;> omega
  | DocBook st =>
      simp [Step.deps, Step.tool_rustbook] at hd
      subst hd
      simp [stepRank, sourceRank]
  | DocNomicon st =>
      simp [Step.deps, Step.tool_rustbook] at hd
      subst hd
      simp [stepRank, sourceRank]
  | DocStyle st =>
      simp [Step.deps, Step.tool_rustbook] at hd
      subst hd
      simp [stepRank, sourceRank]
  | DocStandalone st =>
      simp [Step.deps, Step.rustc] at hd
      subst hd
      simp [stepRank, sourceRank]
  | DocStd st =>
      simp [Step.deps, Step.libstd, Step.compiler] at hd
      subst hd
      simp [stepRank, sourceRank]
  | DocRustc st =>
      simp [Step.deps, Step.doc_std] at hd
      subst hd
      simp [stepRank, sourceRank]
  | Check st c => simp [Step.deps] at hd

theorem deps_length_le (bld : String) (s : Step) :
    (s.deps bld).length ≤ 5 := by
  obtain ⟨src, t⟩ := s
  cases src <;> simp [Step.deps]
  case Rustc st => cases st <;> simp

/-- Termination measure for the resolver's worklist: each pending step
costs exponentially in its rank, so a step's dependency list (at most
5 entries, each of strictly smaller rank) costs less than the step. -/
def worklistCost (l : List Step) : Nat :=
  (l.map (fun s => 6 ^ stepRank s)).sum

theorem worklistCost_cons (s : Step) (l : List Step) :
    worklistCost (s :: l) = 6 ^ stepRank s + worklistCost l := by
  simp [worklistCost]

theorem worklistCost_deps_lt (bld : String) (s : Step) :
    worklistCost (s.deps bld) < 6 ^ stepRank s := by
  have hb : ∀ x ∈ (s.deps bld).map (fun d => 6 ^ stepRank d),
      x ≤ 6 ^ (stepRank s - 1) := by
    intro x hx
    simp only [List.mem_map] at hx
    obtain ⟨d, hd, rfl⟩ := hx
    apply Nat.pow_le_pow_right (by omega)
    have := deps_rank_lt bld s d hd
    omega
  have hsum := List.sum_le_card_nsmul _ _ hb
  simp only [smul_eq_mul, List.length_map] at hsum
  have hlen := deps_length_le bld s
  have h1 : worklistCost (s.deps bld) ≤ 5 * 6 ^ (stepRank s - 1) := by
    unfold worklistCost
    calc ((s.deps bld).map (fun d => 6 ^ stepRank d)).sum
        ≤ (s.deps bld).length * 6 ^ (stepRank s - 1) := hsum
      _ ≤ 5 * 6 ^ (stepRank s - 1) := by
          exact Nat.mul_le_mul_right _ hlen
  have hpos : 0 < 6 ^ (stepRank s - 1) := Nat.pos_pow_of_pos _ (by omega)
  have h2 : 5 * 6 ^ (stepRank s - 1) < 6 ^ stepRank s := by
    have hr := stepRank_pos s
    have h4 : stepRank s - 1 + 1 = stepRank s := by omega
    have h3 : 6 ^ (stepRank s - 1 + 1) = 6 ^ (stepRank s - 1) * 6 :=
      pow_succ 6 _
    rw [h4] at h3
    omega
  omega

theorem worklistCost_rest_lt (s : Step) (l : List Step) :
    worklistCost l < worklistCost (s :: l) := by
  have : 0 < 6 ^ stepRank s := Nat.pos_pow_of_pos _ (by omega)
  rw [worklistCost_cons]
  omega

/-- State of one resolution run (`all` in `step.rs`): the visited set
(the Rust `HashSet`, modelled by its list of elements) and the output
sequence being accumulated. -/
structure RState where
  visited : List Step
  out : List Step
deriving DecidableEq, Repr

/-- The recursive worker `fill` of `all`, fused with the loops that
drive it: processing the worklist `l`, a step already in the visited
set is skipped; otherwise it is marked visited first, its dependency
list is fully processed, and then the step itself is appended to the
output (postorder). `fillList bld [s] st` is exactly one call
`fill(build, s, ret, set)` of the source. -/
def fillList (bld : String) : List Step → RState → RState
  | [], st => st
  | s :: rest, st =>
      if s ∈ st.visited then fillList bld rest st
      else
        let st2 := fillList bld (s.deps bld) ⟨s :: st.visited, st.out⟩
        fillList bld rest ⟨st2.visited, st2.out ++ [s]⟩
termination_by l _ => worklistCost l
decreasing_by
  · exact worklistCost_rest_lt s rest
  · calc worklistCost (s.deps bld) < 6 ^ stepRank s :=
        worklistCost_deps_lt bld s
      _ ≤ worklistCost (s :: rest) := by
        rw [worklistCost_cons]; omega
  · exact worklistCost_rest_lt s rest

/-- The resolver on a given root list: run `fill` over the roots with
an initially empty visited set and output (the body of `all`). -/
def resolve (bld : String) (roots : List Step) : List Step :=
  (fillList bld roots ⟨[], []⟩).out

/-- `all` from `step.rs`: roots from `top_level`, then the dependency
closure in postorder. -/
def Build.all (b : Build) : List Step :=
  resolve b.config.build (top_level b)

/-- `TopoFrom bld seen l`: reading `l` left to right, every element's
dependencies occur strictly earlier — in `seen`, or in `l` before the
element. `TopoFrom bld [] l` is the "valid topological order" property
of an output sequence. -/
def TopoFrom (bld : String) : List Step → List Step → Prop
  | _, [] => True
  | seen, x :: rest =>
      (∀ d ∈ x.deps bld, d ∈ seen) ∧ TopoFrom bld (x :: seen) rest

theorem topoFrom_append (bld : String) (s : Step) :
    ∀ (l seen : List Step), TopoFrom bld seen l →
      (∀ d ∈ s.deps bld, d ∈ seen ∨ d ∈ l) →
      TopoFrom bld seen (l ++ [s]) := by
  intro l
  induction l with
  | nil =>
      intro seen htp hs
      refine ⟨?_, trivial⟩
      intro d hd
      rcases hs d hd with h | h
      · exact h
      · exact absurd h (List.not_mem_nil d)
  | cons x rest ih =>
      intro seen htp hs
      obtain ⟨hx, hrest⟩ := htp
      refine ⟨hx, ih (x :: seen) hrest ?_⟩
      intro d hd
      rcases hs d hd with h | h
      · exact Or.inl (List.mem_cons_of_mem x h)
      · rcases List.mem_cons.mp h with h | h
        · exact Or.inl (h ▸ List.mem_cons_self x seen)
        · exact Or.inr h

theorem topoFrom_closed (bld : String) :
    ∀ (l seen : List Step), TopoFrom bld seen l →
      ∀ x ∈ l, ∀ d ∈ x.deps bld, d ∈ seen ∨ d ∈ l := by
  intro l
  induction l with
  | nil => intro seen _ x hx; exact absurd hx (List.not_mem_nil x)
  | cons y rest ih =>
      intro seen htp x hx d hd
      obtain ⟨hy, hrest⟩ := htp
      rcases List.mem_cons.mp hx with h | h
      · subst h
        exact Or.inl (hy d hd)
      · rcases ih (y :: seen) hrest x h d hd with h2 | h2
        · rcases List.mem_cons.mp h2 with h3 | h3
          · exact Or.inr (h3 ▸ List.mem_cons_self y rest)
          · exact Or.inl h3
        · exact Or.inr (List.mem_cons_of_mem y h2)

theorem topoFrom_index (bld : String) :
    ∀ (l seen : List Step), TopoFrom bld seen l →
      ∀ i : Fin l.length, ∀ d ∈ (l.get i).deps bld,
        d ∈ seen ∨ ∃ j : Fin l.length, j.1 < i.1 ∧ l.get j = d := by
  intro l
  induction l with
  | nil => intro seen _ i; exact absurd i.2 (by simp)
  | cons y rest ih =>
      intro seen htp i d hd
      obtain ⟨hy, hrest⟩ := htp
      match i with
      | ⟨0, h0⟩ =>
          exact Or.inl (hy d hd)
      | ⟨k + 1, hk⟩ =>
          have hk2 : k < rest.length := by
            simpa using Nat.lt_of_succ_lt_succ hk
          have hget : (y :: rest).get ⟨k + 1, hk⟩ = rest.get ⟨k, hk2⟩ := rfl
          rw [hget] at hd
          rcases ih (y :: seen) hrest ⟨k, hk2⟩ d hd with h | h
          · rcases List.mem_cons.mp h with h2 | h2
            · refine Or.inr ⟨⟨0, by simp⟩, by simp, ?_⟩
              simp [h2]
            · exact Or.inl h2
          · obtain ⟨⟨j, hj⟩, hlt, hjd⟩ := h
            refine Or.inr ⟨⟨j + 1, by simpa using Nat.succ_lt_succ hj⟩, ?_, ?_⟩
            · simp only [Fin.val_mk] at hlt ⊢
              omega
            · simpa using hjd

/-- Reachability from a root list under the dependency rule set. -/
inductive Reaches (bld : String) (roots : List Step) : Step → Prop
  | root (s : Step) (hs : s ∈ roots) : Reaches bld roots s
  | dep (s d : Step) (hs : Reaches bld roots s) (hd : d ∈ s.deps bld) :
      Reaches bld roots d

/-- Postcondition of a `fillList` run. `G` is the "gray" set: steps
already marked visited whose processing is still on the call stack
(each of strictly larger rank than everything in the worklist). The
fields: the visited set and output only grow, new output entries were
unvisited at entry, output entries are visited, every visited step is
either emitted or gray, the output has no duplicates and is
topologically ordered, and the whole worklist ends up visited. -/
structure FillListOk (bld : String) (G l : List Step) (st st2 : RState) : Prop where
  vmono : ∀ x ∈ st.visited, x ∈ st2.visited
  omono : ∀ x ∈ st.out, x ∈ st2.out
  newout : ∀ x ∈ st2.out, x ∈ st.out ∨ x ∉ st.visited
  ov : ∀ x ∈ st2.out, x ∈ st2.visited
  vo : ∀ x ∈ st2.visited, x ∈ st2.out ∨ x ∈ G
  nodup : st2.out.Nodup
  topo : TopoFrom bld [] st2.out
  cover : ∀ x ∈ l, x ∈ st2.visited

/-- The depth-first resolver maintains `FillListOk`: proved by
well-founded recursion on the worklist cost, mirroring `fillList`. -/
theorem fillList_ok (bld : String) (l G : List Step) (st : RState)
    (hG : ∀ g ∈ G, ∀ x ∈ l, stepRank x < stepRank g)
    (hvo : ∀ x ∈ st.visited, x ∈ st.out ∨ x ∈ G)
    (hov : ∀ x ∈ st.out, x ∈ st.visited)
    (hnd : st.out.Nodup)
    (htp : TopoFrom bld [] st.out) :
    FillListOk bld G l st (fillList bld l st) := by
  match l with
  | [] =>
      have heq : fillList bld [] st = st := by rw [fillList]
      rw [heq]
      exact
        { vmono := fun x hx => hx
          omono := fun x hx => hx
          newout := fun x hx => Or.inl hx
          ov := hov
          vo := hvo
          nodup := hnd
          topo := htp
          cover := fun x hx => absurd hx (List.not_mem_nil x) }
  | s :: rest =>
      by_cases hs : s ∈ st.visited
      · have heq : fillList bld (s :: rest) st = fillList bld rest st := by
          rw [fillList]
          simp only [if_pos hs]
        rw [heq]
        have IH := fillList_ok bld rest G st
          (fun g hg x hx => hG g hg x (List.mem_cons_of_mem s hx))
          hvo hov hnd htp
        exact
          { vmono := IH.vmono
            omono := IH.omono
            newout := IH.newout
            ov := IH.ov
            vo := IH.vo
            nodup := IH.nodup
            topo := IH.topo
            cover := by
              intro x hx
              rcases List.mem_cons.mp hx with h | h
              · exact IH.vmono x (h ▸ hs)
              · exact IH.cover x h }
      · have hG1 : ∀ g ∈ s :: G, ∀ x ∈ s.deps bld, stepRank x < stepRank g := by
          intro g hg x hx
          rcases List.mem_cons.mp hg with h | h
          · exact h ▸ deps_rank_lt bld s x hx
          · exact lt_trans (deps_rank_lt bld s x hx)
              (hG g h s (List.mem_cons_self s rest))
        have hvo1 : ∀ x ∈ (⟨s :: st.visited, st.out⟩ : RState).visited,
            x ∈ (⟨s :: st.visited, st.out⟩ : RState).out ∨ x ∈ s :: G := by
          intro x hx
          rcases List.mem_cons.mp hx with h | h
          · exact Or.inr (h ▸ List.mem_cons_self s G)
          · rcases hvo x h with h2 | h2
            · exact Or.inl h2
            · exact Or.inr (List.mem_cons_of_mem s h2)
        have hov1 : ∀ x ∈ (⟨s :: st.visited, st.out⟩ : RState).out,
            x ∈ (⟨s :: st.visited, st.out⟩ : RState).visited :=
          fun x hx => List.mem_cons_of_mem s (hov x hx)
        have IH1 := fillList_ok bld (s.deps bld) (s :: G)
          ⟨s :: st.visited, st.out⟩ hG1 hvo1 hov1 hnd htp
        have heq : fillList bld (s :: rest) st =
            fillList bld rest
              ⟨(fillList bld (s.deps bld) ⟨s :: st.visited, st.out⟩).visited,
               (fillList bld (s.deps bld) ⟨s :: st.visited, st.out⟩).out ++ [s]⟩ := by
          rw [fillList]
          simp only [if_neg hs]
        have hdeps_out : ∀ d ∈ s.deps bld,
            d ∈ (fillList bld (s.deps bld) ⟨s :: st.visited, st.out⟩).out := by
          intro d hd
          rcases IH1.vo d (IH1.cover d hd) with h | h
          · exact h
          · rcases List.mem_cons.mp h with h2 | h2
            · have := deps_rank_lt bld s d hd
              rw [h2] at this
              omega
            · have := hG1 d (List.mem_cons_of_mem s h2) d hd
              omega
        have hs_not_out2 :
            s ∉ (fillList bld (s.deps bld) ⟨s :: st.visited, st.out⟩).out := by
          intro hcon
          rcases IH1.newout s hcon with h | h
          · exact hs (hov s h)
          · exact h (List.mem_cons_self s st.visited)
        have hnd2 :
            ((fillList bld (s.deps bld) ⟨s :: st.visited, st.out⟩).out ++ [s]).Nodup := by
          rw [List.nodup_append]
          refine ⟨IH1.nodup, List.nodup_singleton s, ?_⟩
          intro x hx hxs
          rw [List.mem_singleton] at hxs
          exact hs_not_out2 (hxs ▸ hx)
        have htp2 : TopoFrom bld []
            ((fillList bld (s.deps bld) ⟨s :: st.visited, st.out⟩).out ++ [s]) :=
          topoFrom_append bld s _ [] IH1.topo
            (fun d hd => Or.inr (hdeps_out d hd))
        have hvo2 : ∀ x ∈ (fillList bld (s.deps bld) ⟨s :: st.visited, st.out⟩).visited,
            x ∈ (fillList bld (s.deps bld) ⟨s :: st.visited, st.out⟩).out ++ [s] ∨ x ∈ G := by
          intro x hx
          rcases IH1.vo x hx with h | h
          · exact Or.inl (List.mem_append_left _ h)
          · rcases List.mem_cons.mp h with h2 | h2
            · exact Or.inl (List.mem_append_right _ (h2 ▸ List.mem_singleton_self s))
            · exact Or.inr h2
        have hov2 : ∀ x ∈ (fillList bld (s.deps bld) ⟨s :: st.visited, st.out⟩).out ++ [s],
            x ∈ (fillList bld (s.deps bld) ⟨s :: st.visited, st.out⟩).visited := by
          intro x hx
          rcases List.mem_append.mp hx with h | h
          · exact IH1.ov x h
          · rw [List.mem_singleton] at h
            exact h ▸ IH1.vmono s (List.mem_cons_self s st.visited)
        have IH2 := fillList_ok bld rest G
          ⟨(fillList bld (s.deps bld) ⟨s :: st.visited, st.out⟩).visited,
           (fillList bld (s.deps bld) ⟨s :: st.visited, st.out⟩).out ++ [s]⟩
          (fun g hg x hx => hG g hg x (List.mem_cons_of_mem s hx))
          hvo2 hov2 hnd2 htp2
        rw [heq]
        exact
          { vmono := fun x hx =>
              IH2.vmono x (IH1.vmono x (List.mem_cons_of_mem s hx))
            omono := fun x hx =>
              IH2.omono x (List.mem_append_left _ (IH1.omono x hx))
            newout := by
              intro x hx
              rcases IH2.newout x hx with h | h
              · rcases List.mem_append.mp h with h2 | h2
                · rcases IH1.newout x h2 with h3 | h3
                  · exact Or.inl h3
                  · exact Or.inr (fun hc => h3 (List.mem_cons_of_mem s hc))
                · rw [List.mem_singleton] at h2
                  exact Or.inr (h2 ▸ hs)
              · exact Or.inr
                  (fun hc => h (IH1.vmono x (List.mem_cons_of_mem s hc)))
            ov := IH2.ov
            vo := IH2.vo
            nodup := IH2.nodup
            topo := IH2.topo
            cover := by
              intro x hx
              rcases List.mem_cons.mp hx with h | h
              · exact h ▸ IH2.vmono s
                  (IH1.vmono s (List.mem_cons_self s st.visited))
              · exact IH2.cover x h }
termination_by worklistCost l
decreasing_by
  · exact worklistCost_rest_lt s rest
  · calc worklistCost (s.deps bld) < 6 ^ stepRank s :=
        worklistCost_deps_lt bld s
      _ ≤ worklistCost (s :: rest) := by
        rw [worklistCost_cons]; omega
  · exact worklistCost_rest_lt s rest

/-- Every root ends up in the resolver's output. -/
theorem roots_mem_resolve (bld : String) (roots : List Step) (s : Step)
    (hs : s ∈ roots) : s ∈ resolve bld roots := by
  have H := fillList_ok bld roots [] ⟨[], []⟩
    (fun g hg => absurd hg (List.not_mem_nil g))
    (fun x hx => absurd hx (List.not_mem_nil x))
    (fun x hx => absurd hx (List.not_mem_nil x))
    List.nodup_nil trivial
  rcases H.vo s (H.cover s hs) with h | h
  · exact h
  · exact absurd h (List.not_mem_nil s)

/-- C1: for every build triple and every finite list of root steps, the
resolver's output contains every step reachable from the roots, no step
twice, and every dependency of an output step at a strictly earlier
index — a valid topological order. The claim's acyclicity assumption
holds outright for this rule set (`deps_rank_lt` exhibits a rank that
strictly decreases along every dependency edge), so the theorem needs
no hypothesis. `Build.all b` is `resolve b.config.build (top_level b)`,
so this covers the resolver on any root selection. -/
theorem resolve_topological_order (bld : String) (roots : List Step) :
    (resolve bld roots).Nodup ∧
    (∀ s : Step, Reaches bld roots s → s ∈ resolve bld roots) ∧
    (∀ i : Fin (resolve bld roots).length,
      ∀ d ∈ ((resolve bld roots).get i).deps bld,
        ∃ j : Fin (resolve bld roots).length,
          j.1 < i.1 ∧ (resolve bld roots).get j = d) := by
  have H := fillList_ok bld roots [] ⟨[], []⟩
    (fun g hg => absurd hg (List.not_mem_nil g))
    (fun x hx => absurd hx (List.not_mem_nil x))
    (fun x hx => absurd hx (List.not_mem_nil x))
    List.nodup_nil trivial
  refine ⟨H.nodup, ?_, ?_⟩
  · have hroot : ∀ s ∈ roots, s ∈ resolve bld roots := by
      intro s hsr
      rcases H.vo s (H.cover s hsr) with h | h
      · exact h
      · exact absurd h (List.not_mem_nil s)
    have hclosed : ∀ x ∈ resolve bld roots, ∀ d ∈ x.deps bld,
        d ∈ resolve bld roots := by
      intro x hx d hd
      rcases topoFrom_closed bld _ [] H.topo x hx d hd with h | h
      · exact absurd h (List.not_mem_nil d)
      · exact h
    intro s hre
    induction hre with
    | root s hsr => exact hroot s hsr
    | dep s d hs hd ih => exact hclosed s ih d hd
  · intro i d hd
    rcases topoFrom_index bld _ [] H.topo i d hd with h | h
    · exact absurd h (List.not_mem_nil d)
    · exact h

/-- C4: the dependency rule for `Rustc`: stage 0 has no dependencies
(the external seed compiler); stage `n > 0` has exactly one, `Librustc`
at stage `n - 1` with the compiler of stage `n - 1` hosted on the
configured primary build triple, at the step's own target. -/
theorem rustc_deps_rule (bld t : String) (n : Nat) (h : 0 < n) :
    Step.deps ⟨Source.Rustc 0, t⟩ bld = [] ∧
    Step.deps ⟨Source.Rustc n, t⟩ bld =
      [⟨Source.Librustc (n - 1) ⟨n - 1, bld⟩, t⟩] := by
  refine ⟨rfl, ?_⟩
  cases n with
  | zero => exact absurd h (lt_irrefl 0)
  | succ m => rfl

theorem rustc_deps_rule_witness :
    Step.deps ⟨Source.Rustc 0, "x86_64-host"⟩ "x86_64-host" = [] ∧
    Step.deps ⟨Source.Rustc 1, "x86_64-host"⟩ "x86_64-host" =
      [⟨Source.Librustc 0 ⟨0, "x86_64-host"⟩, "x86_64-host"⟩] :=
  rustc_deps_rule "x86_64-host" "x86_64-host" 1 (by decide)

/-- Modelled from the spec: the dependency rule table written directly
from the spec's per-variant bullet list in §4.2 (every variant has its
own entry, no default arm; `retargeted` and `compiler_at` as described
there), for comparison against the source's `Step.deps`. -/
def dependenciesSpec (bld : String) (s : Step) : List Step :=
  match s.src with
  | Source.Rustc 0 => []
  | Source.Rustc (n + 1) => [⟨Source.Librustc n ⟨n, bld⟩, s.target⟩]
  | Source.Librustc st c => [⟨Source.Libstd st c, s.target⟩, ⟨Source.Llvm, s.target⟩]
  | Source.Libstd _ c => [⟨Source.CompilerRt, s.target⟩, ⟨Source.Rustc c.stage, c.host⟩]
  | Source.LibrustcLink st c h =>
      [⟨Source.Librustc st c, s.target⟩, ⟨Source.LibstdLink st c h, s.target⟩]
  | Source.LibstdLink st c h => [⟨Source.Libstd st c, s.target⟩, ⟨Source.Rustc st, h⟩]
  | Source.CompilerRt => [⟨Source.Llvm, bld⟩]
  | Source.Llvm => []
  | Source.DocStd st => [⟨Source.Libstd st ⟨st, s.target⟩, s.target⟩]
  | Source.DocBook st => [⟨Source.ToolRustbook st, s.target⟩]
  | Source.DocNomicon st => [⟨Source.ToolRustbook st, s.target⟩]
  | Source.DocStyle st => [⟨Source.ToolRustbook st, s.target⟩]
  | Source.DocStandalone st => [⟨Source.Rustc st, s.target⟩]
  | Source.DocRustc st => [⟨Source.DocStd st, s.target⟩]
  | Source.Doc st =>
      [⟨Source.DocBook st, s.target⟩, ⟨Source.DocNomicon st, s.target⟩,
       ⟨Source.DocStyle st, s.target⟩, ⟨Source.DocStandalone st, s.target⟩,
       ⟨Source.DocStd st, s.target⟩]
  | Source.Check _ _ => []
  | Source.ToolRustbook st => [⟨Source.Librustc st ⟨st, s.target⟩, s.target⟩]

/-- C5: the dependency function is total over all Source variants —
for every step it returns a list without any panic or fallthrough, and
on every variant (including `Check` and `ToolRustbook`) it agrees with
the spec's per-variant rule table. -/
theorem deps_total_matches_spec (bld : String) (s : Step) :
    s.deps bld = dependenciesSpec bld s := by
  obtain ⟨src, t⟩ := s
  cases src with
  | Rustc st =>
      cases st with
      | zero => rfl
      | succ n => rfl
  | Libstd st c => rfl
  | Librustc st c => rfl
  | LibstdLink st c h => rfl
  | LibrustcLink st c h => rfl
  | ToolRustbook st => rfl
  | Llvm => rfl
  | CompilerRt => rfl
  | Doc st => rfl
  | DocBook st => rfl
  | DocNomicon st => rfl
  | DocStyle st => rfl
  | DocStandalone st => rfl
  | DocStd st => rfl
  | DocRustc st => rfl
  | Check st c => rfl

/-- C6: a `Libstd` step's dependencies are exactly `CompilerRt` at the
step's own target and `Rustc{compiler.stage}` retargeted to
`compiler.host`; the `Libstd` step's own stage field is irrelevant. -/
theorem libstd_deps_rule (bld t : String) (st1 st2 : Nat) (c : Compiler) :
    Step.deps ⟨Source.Libstd st1 c, t⟩ bld =
      [⟨Source.CompilerRt, t⟩, ⟨Source.Rustc c.stage, c.host⟩] ∧
    Step.deps ⟨Source.Libstd st1 c, t⟩ bld =
      Step.deps ⟨Source.Libstd st2 c, t⟩ bld :=
  ⟨rfl, rfl⟩

/-- C7: a `LibstdLink{stage, compiler, host}` step's dependencies are
exactly `Libstd{stage, compiler}` at the step's own target and
`Rustc{stage}` retargeted to the payload's `host` triple. -/
theorem libstd_link_deps_rule (bld t host : String) (st : Nat) (c : Compiler) :
    Step.deps ⟨Source.LibstdLink st c host, t⟩ bld =
      [⟨Source.Libstd st c, t⟩, ⟨Source.Rustc st, host⟩] := rfl

/-- C8: a `Check{stage, compiler}` step has no dependencies, at every
target triple. (Read from the source with the single evidently missing
closing brace inserted after the arm's `vec![]`; see the header.) -/
theorem check_deps_empty (bld t : String) (st : Nat) (c : Compiler) :
    Step.deps ⟨Source.Check st c, t⟩ bld = [] := rfl

/-- C9: a `ToolRustbook{stage}` step depends exactly on
`Librustc{stage, compiler_at(stage)}` at the step's own target, where
`compiler_at(stage)` is `Step.compiler`: stage paired with the step's
own target as host. -/
theorem tool_rustbook_deps_rule (bld t : String) (st : Nat) :
    Step.deps ⟨Source.ToolRustbook st, t⟩ bld =
      [⟨Source.Librustc st ((⟨Source.ToolRustbook st, t⟩ : Step).compiler st), t⟩] ∧
    (⟨Source.ToolRustbook st, t⟩ : Step).compiler st = ⟨st, t⟩ :=
  ⟨rfl, rfl⟩

/-- A name matching no variant contributes no step. -/
theorem name_step_eq_nil (stage : Nat) (compiler : Compiler) (hostT : String)
    (target : Step) (name : String) (h : name ∉ step_names) :
    name_step stage compiler hostT target name = [] := by
  simp only [step_names, List.mem_cons, List.not_mem_nil, or_false,
    not_or] at h
  obtain ⟨h1, h2, h3, h4, h5, h6, h7, h8, h9, h10, h11, h12, h13, h14,
    h15, h16⟩ := h
  unfold name_step
  rw [if_neg h1, if_neg h2, if_neg h3, if_neg h4, if_neg h5, if_neg h6,
    if_neg h7, if_neg h8, if_neg h9, if_neg h10, if_neg h11, if_neg h12,
    if_neg h13, if_neg h14, if_neg h15, if_neg h16]

/-- If no requested name matches any variant, explicit mode adds no
steps at all. -/
theorem add_steps_list_eq_nil (stage : Nat) (compiler : Compiler)
    (hostT : String) (target : Step) :
    ∀ names : List String, (∀ n ∈ names, n ∉ step_names) →
      add_steps_list stage compiler hostT target names = [] := by
  intro names
  induction names with
  | nil => intro _; rfl
  | cons a rest ih =>
      intro h
      rw [add_steps_list,
        name_step_eq_nil stage compiler hostT target a
          (h a (List.mem_cons_self a rest)),
        List.nil_append]
      exact ih (fun n hn => h n (List.mem_cons_of_mem a hn))

/-- A build whose single explicit action name matches no variant. -/
def exBuildUnknown : Build :=
  ⟨⟨none, [], [], ["frobnicate"]⟩,
   ⟨"x86_64-host", ["x86_64-host"], ["x86_64-host"]⟩⟩

/-- C2 counterexample: `"frobnicate"` is not a known action name, it is
the only requested explicit action, yet the resolver's output is not
empty — the empty explicit root list makes `top_level` fall through to
default mode (`if targets.len() == 0`), which resolves the `Doc` root
and its closure. -/
theorem unknown_name_output_not_empty :
    "frobnicate" ∉ step_names ∧
    exBuildUnknown.flags.step = ["frobnicate"] ∧
    exBuildUnknown.all ≠ [] := by
  refine ⟨by decide, rfl, ?_⟩
  intro hcon
  have hmem : (⟨Source.Doc 2, "x86_64-host"⟩ : Step) ∈ exBuildUnknown.all :=
    roots_mem_resolve exBuildUnknown.config.build (top_level exBuildUnknown)
      ⟨Source.Doc 2, "x86_64-host"⟩ (by decide)
  rw [hcon] at hmem
  exact absurd hmem (List.not_mem_nil _)

/-- C2 as amended: when the caller supplies only explicit action names
and none matches a variant's canonical hyphenated name, the
unrecognized names are silently ignored and no error is raised, but
the output is not empty: the explicit root list stays empty, so the
root selector falls back to default mode and the resolver returns the
default-mode output (which always contains at least the `Doc` root's
closure). -/
theorem unknown_names_fall_back_to_default (b : Build)
    (h : ∀ n ∈ b.flags.step, n ∉ step_names) :
    top_level b = default_targets b (b.flags.stage.getD 2) ∧
    b.all = resolve b.config.build (default_targets b (b.flags.stage.getD 2)) ∧
    b.all ≠ [] := by
  have htop : top_level b = default_targets b (b.flags.stage.getD 2) := by
    unfold top_level add_steps
    simp [add_steps_list_eq_nil _ _ _ _ b.flags.step h]
  refine ⟨htop, ?_, ?_⟩
  · unfold Build.all
    rw [htop]
  · intro hcon
    have hmem : (⟨Source.Doc (b.flags.stage.getD 2), b.config.build⟩ : Step)
        ∈ b.all := by
      apply roots_mem_resolve b.config.build (top_level b)
      rw [htop]
      exact List.mem_cons_self _ _
    rw [hcon] at hmem
    exact absurd hmem (List.not_mem_nil _)

theorem unknown_names_fall_back_to_default_witness :
    top_level exBuildUnknown = default_targets exBuildUnknown 2 ∧
    exBuildUnknown.all = resolve "x86_64-host" (default_targets exBuildUnknown 2) ∧
    exBuildUnknown.all ≠ [] :=
  unknown_names_fall_back_to_default exBuildUnknown (by decide)

/-- A requested target triple contributes its library root to the
default-mode inner loop. -/
theorem target_roots_mem (b : Build) (stage : Nat) (t hostStep : Step)
    (tg : String) (htf : tg ∈ b.flags.target) :
    ∀ tgs : List String, tg ∈ tgs →
      (if hostStep.target = b.config.build then
         (hostStep.retarget tg).libstd stage (hostStep.compiler stage)
       else
         (hostStep.retarget tg).libstd_link stage (t.compiler stage) hostStep.target)
        ∈ target_roots b stage t hostStep tgs := by
  intro tgs
  induction tgs with
  | nil => intro h0; exact absurd h0 (List.not_mem_nil tg)
  | cons a tgs ih =>
      intro hmem
      rcases List.mem_cons.mp hmem with h0 | h0
      · subst h0
        rw [target_roots, if_pos htf]
        exact List.mem_cons_self _ _
      · rw [target_roots]
        by_cases ha : a ∈ b.flags.target
        · rw [if_pos ha]
          exact List.mem_cons_of_mem _ (ih h0)
        · rw [if_neg ha]
          exact ih h0

/-- A requested host triple contributes its compiler-library root (and,
for every requested target, its standard-library root) to the
default-mode outer loop. -/
theorem host_roots_mem (b : Build) (stage : Nat) (t : Step) (h : String)
    (hhf : h ∈ b.flags.host) :
    ∀ hosts : List String, h ∈ hosts →
      ((if (t.retarget h).target = b.config.build then
          (t.retarget h).librustc stage ((t.retarget h).compiler stage)
        else
          (t.retarget h).librustc_link stage (t.compiler stage) (t.retarget h).target)
         ∈ host_roots b stage t hosts) ∧
      (∀ tg : String, tg ∈ b.config.target → tg ∈ b.flags.target →
        (if (t.retarget h).target = b.config.build then
           ((t.retarget h).retarget tg).libstd stage ((t.retarget h).compiler stage)
         else
           ((t.retarget h).retarget tg).libstd_link stage (t.compiler stage)
             (t.retarget h).target)
          ∈ host_roots b stage t hosts) := by
  intro hosts
  induction hosts with
  | nil => intro h0; exact absurd h0 (List.not_mem_nil h)
  | cons a hs ih =>
      intro hmem
      rcases List.mem_cons.mp hmem with h0 | h0
      · subst h0
        constructor
        · rw [host_roots, if_pos hhf]
          exact List.mem_cons_self _ _
        · intro tg htg htgf
          rw [host_roots, if_pos hhf]
          apply List.mem_cons_of_mem
          apply List.mem_append_left
          exact target_roots_mem b stage t (t.retarget h) tg htgf
            b.config.target htg
      · have IH := ih h0
        by_cases ha : a ∈ b.flags.host
        · constructor
          · rw [host_roots, if_pos ha]
            exact List.mem_cons_of_mem _ (List.mem_append_right _ IH.1)
          · intro tg htg htgf
            rw [host_roots, if_pos ha]
            exact List.mem_cons_of_mem _
              (List.mem_append_right _ (IH.2 tg htg htgf))
        · constructor
          · rw [host_roots, if_neg ha]
            exact IH.1
          · intro tg htg htgf
            rw [host_roots, if_neg ha]
            exact IH.2 tg htg htgf

/-- A build with one configured host and target and *empty* requested
host/target sets (and no explicit action names). -/
def exBuildEmptyReq : Build :=
  ⟨⟨none, [], [], []⟩, ⟨"x86_64-host", ["x86_64-host"], ["x86_64-host"]⟩⟩

/-- C3 counterexample: with a configured host equal to the build triple
but an *empty* requested host set, default mode produces no `Librustc`
root at all — the output roots are just the `Doc` root. An empty
requested set therefore does not mean "all configured"; the
`build.flags.host.contains(host)` filter skips every host. -/
theorem empty_requested_hosts_no_library_roots :
    exBuildEmptyReq.config.host = ["x86_64-host"] ∧
    exBuildEmptyReq.flags.host = [] ∧
    top_level exBuildEmptyReq = [⟨Source.Doc 2, "x86_64-host"⟩] ∧
    (⟨Source.Librustc 2 ⟨2, "x86_64-host"⟩, "x86_64-host"⟩ : Step) ∉
      top_level exBuildEmptyReq := by decide

/-- C3 as amended: in default mode, a root is produced exactly for the
configured hosts that are *also in the requested host set* (`Librustc`
when the host equals the primary build triple, `LibrustcLink`
otherwise), and a standard-library root for every such host paired
with each configured target that is also in the requested target set;
an empty requested set selects no hosts (resp. targets) rather than
all configured ones. -/
theorem default_mode_requested_roots (b : Build) (h tg : String)
    (hstep : b.flags.step = [])
    (hh : h ∈ b.config.host) (hhf : h ∈ b.flags.host)
    (ht : tg ∈ b.config.target) (htf : tg ∈ b.flags.target) :
    (if h = b.config.build then
       (⟨Source.Librustc (b.flags.stage.getD 2)
           ⟨b.flags.stage.getD 2, h⟩, h⟩ : Step)
     else
       ⟨Source.LibrustcLink (b.flags.stage.getD 2)
           ⟨b.flags.stage.getD 2, b.config.build⟩ h, h⟩)
      ∈ top_level b ∧
    (if h = b.config.build then
       (⟨Source.Libstd (b.flags.stage.getD 2)
           ⟨b.flags.stage.getD 2, h⟩, tg⟩ : Step)
     else
       ⟨Source.LibstdLink (b.flags.stage.getD 2)
           ⟨b.flags.stage.getD 2, b.config.build⟩ h, tg⟩)
      ∈ top_level b := by
  have htop : top_level b = default_targets b (b.flags.stage.getD 2) := by
    unfold top_level add_steps
    rw [hstep]
    simp [add_steps_list]
  have hdef : default_targets b (b.flags.stage.getD 2) =
      (⟨Source.Doc (b.flags.stage.getD 2), b.config.build⟩ : Step) ::
        host_roots b (b.flags.stage.getD 2)
          ⟨Source.Llvm, b.config.build⟩ b.config.host := rfl
  have H := host_roots_mem b (b.flags.stage.getD 2)
    ⟨Source.Llvm, b.config.build⟩ h hhf b.config.host hh
  rw [htop, hdef]
  exact ⟨List.mem_cons_of_mem _ H.1,
    List.mem_cons_of_mem _ (H.2 tg ht htf)⟩

/-- A cross-host configuration: requested host `"arm-host"` differs
from the primary build triple. -/
def exBuildTwoHosts : Build :=
  ⟨⟨some 1, ["x86_64-host", "arm-host"], ["x86_64-host"], []⟩,
   ⟨"x86_64-host", ["x86_64-host", "arm-host"], ["x86_64-host"]⟩⟩

theorem default_mode_requested_roots_witness :
    (⟨Source.LibrustcLink 1 ⟨1, "x86_64-host"⟩ "arm-host", "arm-host"⟩ : Step)
      ∈ top_level exBuildTwoHosts ∧
    (⟨Source.LibstdLink 1 ⟨1, "x86_64-host"⟩ "arm-host", "x86_64-host"⟩ : Step)
      ∈ top_level exBuildTwoHosts := by
  have H := default_mode_requested_roots exBuildTwoHosts "arm-host" "x86_64-host"
    rfl (by decide) (by decide) (by decide) (by decide)
  have hne : ¬ ("arm-host" = exBuildTwoHosts.config.build) := by decide
  rw [if_neg hne, if_neg hne] at H
  exact H

/-- The resolver only queries the visited set through membership, so
representing it by any permutation of its elements (the Rust `HashSet`
holds them in arbitrary order) leaves the output unchanged. -/
theorem fillList_perm (bld : String) (l : List Step) :
    ∀ (v1 v2 out : List Step), v1.Perm v2 →
      (fillList bld l ⟨v1, out⟩).out = (fillList bld l ⟨v2, out⟩).out ∧
      (fillList bld l ⟨v1, out⟩).visited.Perm
        (fillList bld l ⟨v2, out⟩).visited := by
  match l with
  | [] =>
      intro v1 v2 out hp
      simp only [fillList]
      exact ⟨trivial, hp⟩
  | s :: rest =>
      intro v1 v2 out hp
      by_cases hs : s ∈ v1
      · have hs2 : s ∈ v2 := hp.mem_iff.mp hs
        simp only [fillList]
        rw [if_pos hs, if_pos hs2]
        exact fillList_perm bld rest v1 v2 out hp
      · have hs2 : s ∉ v2 := fun hc => hs (hp.mem_iff.mpr hc)
        simp only [fillList]
        rw [if_neg hs, if_neg hs2]
        obtain ⟨ho, hv⟩ :=
          fillList_perm bld (s.deps bld) (s :: v1) (s :: v2) out (hp.cons s)
        rw [ho]
        exact fillList_perm bld rest _ _ _ hv
termination_by worklistCost l
decreasing_by
  · exact worklistCost_rest_lt s rest
  · calc worklistCost (s.deps bld) < 6 ^ stepRank s :=
        worklistCost_deps_lt bld s
      _ ≤ worklistCost (s :: rest) := by
        rw [worklistCost_cons]; omega
  · exact worklistCost_rest_lt s rest

/-- C10: the resolver is deterministic. In this pure embedding the
output is literally a function of the root sequence (first conjunct);
the substantive content is that the one internal piece of state whose
representation the Rust code does not fix — the `HashSet` of visited
steps, which stores its elements in arbitrary order — cannot influence
the output: any permutation of the visited set yields the same output
sequence, so two runs over the same roots with the same configuration
produce identical outputs. -/
theorem resolver_deterministic (bld : String) (roots v1 v2 out : List Step)
    (hp : v1.Perm v2) :
    resolve bld roots = resolve bld roots ∧
    (fillList bld roots ⟨v1, out⟩).out = (fillList bld roots ⟨v2, out⟩).out :=
  ⟨rfl, (fillList_perm bld roots v1 v2 out hp).1⟩

theorem resolver_deterministic_witness :
    resolve "x86_64-host" [⟨Source.Rustc 1, "x86_64-host"⟩] =
      resolve "x86_64-host" [⟨Source.Rustc 1, "x86_64-host"⟩] ∧
    (fillList "x86_64-host" [⟨Source.Rustc 1, "x86_64-host"⟩]
        ⟨[⟨Source.Llvm, "a"⟩, ⟨Source.CompilerRt, "a"⟩], []⟩).out =
      (fillList "x86_64-host" [⟨Source.Rustc 1, "x86_64-host"⟩]
        ⟨[⟨Source.CompilerRt, "a"⟩, ⟨Source.Llvm, "a"⟩], []⟩).out :=
  resolver_deterministic "x86_64-host" [⟨Source.Rustc 1, "x86_64-host"⟩]
    ([⟨Source.Llvm, "a"⟩, ⟨Source.CompilerRt, "a"⟩] : List Step)
    ([⟨Source.CompilerRt, "a"⟩, ⟨Source.Llvm, "a"⟩] : List Step) []
    (List.Perm.swap (⟨Source.CompilerRt, "a"⟩ : Step) ⟨Source.Llvm, "a"⟩ [])
